import Mathlib

/-!
Verification of the WEB-Bible-Parser extraction pipeline (`src/main.py`).

The HTML documents handled by `extract_verses_from_html` are modelled as
already-parsed element trees (`Node`): BeautifulSoup's parsing step is
abstracted away, every structural operation the Python code performs on the
parsed soup (find, find_all, decompose, next_element walk, parents chain,
get_text, str(...) serialization) is reproduced on `Node`.  Machine-level
Python behaviours that the code relies on are modelled explicitly:
`int(...)` as `pyInt`, `str.strip()` as `pyStrip`, `str.split()` as
`pyWords`, dict insertion order as `dictInsert` on association lists, and
BeautifulSoup's structural `==` on tags as `Node.beq`.
-/

/-- An HTML node: either a text node (NavigableString) or an element tag
with its name, its (optional, multi-valued) `class` attribute, and its
children in document order.  Only the `class` attribute is modelled; it is
the only attribute `extract_verses_from_html` ever reads. -/
inductive Node where
  | text (s : String)
  | tag (name : String) (classes : Option (List String)) (children : List Node)
deriving Repr

/- Structural equality on nodes, mirroring BeautifulSoup's `Tag.__eq__`
(same name, same attributes, same contents) and `NavigableString.__eq__`. -/
mutual
def Node.beq : Node → Node → Bool
  | .text s, .text t => s == t
  | .tag n1 c1 k1, .tag n2 c2 k2 => n1 == n2 && c1 == c2 && Node.beqList k1 k2
  | _, _ => false
def Node.beqList : List Node → List Node → Bool
  | [], [] => true
  | a :: as, b :: bs => Node.beq a b && Node.beqList as bs
  | _, _ => false
end

mutual
theorem Node.beq_iff : ∀ a b : Node, Node.beq a b = true ↔ a = b
  | .text _, .text _ => by simp [Node.beq]
  | .text _, .tag .. => by simp [Node.beq]
  | .tag .., .text _ => by simp [Node.beq]
  | .tag n1 c1 k1, .tag n2 c2 k2 => by
      simp [Node.beq, Node.beqList_iff k1 k2, and_assoc]
theorem Node.beqList_iff : ∀ a b : List Node, Node.beqList a b = true ↔ a = b
  | [], [] => by simp [Node.beqList]
  | [], _ :: _ => by simp [Node.beqList]
  | _ :: _, [] => by simp [Node.beqList]
  | a :: as, b :: bs => by
      simp [Node.beqList, Node.beq_iff a b, Node.beqList_iff as bs]
end

instance : DecidableEq Node := fun a b => decidable_of_iff _ (Node.beq_iff a b)

instance : BEq Node := ⟨Node.beq⟩

theorem Node.beq_eq_decide (a b : Node) : (a == b) = decide (a = b) := by
  rcases h : a == b with _ | _
  · rcases hd : decide (a = b) with _ | _
    · rfl
    · exact absurd ((Node.beq_iff a b).2 (of_decide_eq_true hd)) (by simp_all [BEq.beq])
  · simp [(Node.beq_iff a b).1 h]

instance : LawfulBEq Node where
  eq_of_beq h := (Node.beq_iff _ _).1 h
  rfl := by intro a; exact (Node.beq_iff a a).2 rfl

/-! ## Python string primitives used by the extraction routine -/

/-- The whitespace characters recognized by Python's `str.strip()` /
`str.split()` (ASCII range; the corpus is ASCII apart from U+00A0, which the
code replaces explicitly before splitting). -/
def isPySpace (c : Char) : Bool :=
  c == ' ' || c == '\t' || c == '\n' || c == '\r' || c == '\x0B' || c == '\x0C'

/-- `str.strip()` on a character list. -/
def pyStripL (l : List Char) : List Char :=
  ((l.dropWhile isPySpace).reverse.dropWhile isPySpace).reverse

/-- `str.strip()`. -/
def pyStrip (s : String) : String := String.mk (pyStripL s.toList)

/-- `str.replace('\xa0', ' ')`. -/
def replaceNbsp (s : String) : String :=
  String.mk (s.toList.map (fun c => if c == '\xA0' then ' ' else c))

/-- Helper for `pyWords`: accumulates the current word (reversed). -/
def pyWordsAux : List Char → List Char → List (List Char)
  | [], acc => if acc.isEmpty then [] else [acc.reverse]
  | c :: cs, acc =>
    if isPySpace c then
      if acc.isEmpty then pyWordsAux cs [] else acc.reverse :: pyWordsAux cs []
    else pyWordsAux cs (c :: acc)

/-- `str.split()` with no argument: maximal runs of non-whitespace. -/
def pyWords (l : List Char) : List (List Char) := pyWordsAux l []

/-- `' '.join(words)`. -/
def joinWordsSp : List (List Char) → List Char
  | [] => []
  | [w] => w
  | w :: ws => w ++ ' ' :: joinWordsSp ws

/-- `' '.join(s.split())`. -/
def pySplitJoin (s : String) : String := String.mk (joinWordsSp (pyWords s.toList))

/-- Tail of a Python integer literal after its first digit: digits with
single underscores allowed between digits. -/
def pyIntTail : List Char → Bool
  | [] => true
  | '_' :: [] => false
  | '_' :: c :: cs => c.isDigit && pyIntTail (c :: cs)
  | c :: cs => c.isDigit && pyIntTail cs

/-- Numeric value of a digit/underscore run (underscores skipped). -/
def pyDigitsVal (l : List Char) : Nat :=
  (l.filter (fun c => c != '_')).foldl (fun a c => a * 10 + (c.toNat - 48)) 0

/-- Unsigned part of Python's `int(str)`: nonempty, starts with a digit,
underscores only between digits. -/
def pyNat : List Char → Option Nat
  | [] => none
  | c :: cs => if c.isDigit && pyIntTail cs then some (pyDigitsVal (c :: cs)) else none

/-- Python's `int(str)`: strips surrounding whitespace, accepts an optional
sign followed by a digit run (with optional single underscores between
digits), raises (here: `none`) otherwise. -/
def pyInt (s : String) : Option Int :=
  match pyStripL s.toList with
  | '+' :: rest => (pyNat rest).map Int.ofNat
  | '-' :: rest => (pyNat rest).map (fun n => -(n : Int))
  | rest => (pyNat rest).map Int.ofNat

example : pyInt " 12 " = some 12 := by decide
example : pyInt "0" = some 0 := by decide
example : pyInt "-3" = some (-3) := by decide
example : pyInt "1_2" = some 12 := by decide
example : pyInt "1__2" = none := by decide
example : pyInt "_1" = none := by decide
example : pyInt "1 2" = none := by decide
example : pyInt "" = none := by decide
example : pyInt "+" = none := by decide

/-! ## Tree operations mirroring BeautifulSoup -/

/-- The subtree of `n` at a path (child indices from the root). -/
def subtreeAt : Node → List Nat → Option Node
  | n, [] => some n
  | .text _, _ :: _ => none
  | .tag _ _ cs, i :: p =>
    match cs[i]? with
    | some c => subtreeAt c p
    | none => none

/- Pre-order flattening of a tree: every node, paired with its path, in
document order.  This is exactly the order of BeautifulSoup's
`next_element` chain. -/
mutual
def flattenP (pre : List Nat) : Node → List (List Nat × Node)
  | .text s => [(pre, .text s)]
  | .tag nm cl cs => (pre, .tag nm cl cs) :: flattenKids pre 0 cs
def flattenKids (pre : List Nat) (i : Nat) : List Node → List (List Nat × Node)
  | [] => []
  | c :: cs => flattenP (pre ++ [i]) c ++ flattenKids pre (i + 1) cs
end

/-- `root.find(pred)`: first descendant (pre-order, excluding `root`
itself) matching `pred`, with its path. -/
def findEntry (p : Node → Bool) (root : Node) : Option (List Nat × Node) :=
  ((flattenP [] root).drop 1).find? (fun e => p e.2)

/-- `root.find_all(pred)`: all matching descendants in document order. -/
def findEntries (p : Node → Bool) (root : Node) : List (List Nat × Node) :=
  ((flattenP [] root).drop 1).filter (fun e => p e.2)

/-- Is the node an `<a>` element? -/
def isAnchor : Node → Bool
  | .tag nm _ _ => nm == "a"
  | .text _ => false

/- `for a in main_content.find_all('a'): a.decompose()` — removes every
hyperlink subtree. -/
mutual
def stripAnchors : Node → Node
  | .text s => .text s
  | .tag nm cl cs => .tag nm cl (stripAnchorsL cs)
def stripAnchorsL : List Node → List Node
  | [] => []
  | c :: cs => (if isAnchor c then [] else [stripAnchors c]) ++ stripAnchorsL cs
end

/- Replace the subtree at a given path (used to model the in-place mutation
of the soup by `decompose`). -/
mutual
def replaceAt : Node → List Nat → Node → Node
  | _, [], r => r
  | .text s, _ :: _, _ => .text s
  | .tag nm cl cs, i :: p, r => .tag nm cl (replaceAtL cs i p r)
def replaceAtL : List Node → Nat → List Nat → Node → List Node
  | [], _, _, _ => []
  | c :: cs, 0, p, r => replaceAt c p r :: cs
  | c :: cs, i + 1, p, r => c :: replaceAtL cs i p r
end

/- `tag.get_text(strip=True)`: concatenation of all descendant strings,
each stripped. -/
mutual
def getTextStrip : Node → String
  | .text s => pyStrip s
  | .tag _ _ cs => getTextStripL cs
def getTextStripL : List Node → String
  | [] => ""
  | c :: cs => getTextStrip c ++ getTextStripL cs
end

/-- HTML entity escaping applied by `str(tag)` (BeautifulSoup's "minimal"
formatter) to text content and attribute values. -/
def escapeHtmlL : List Char → List Char
  | [] => []
  | '&' :: cs => '&' :: 'a' :: 'm' :: 'p' :: ';' :: escapeHtmlL cs
  | '<' :: cs => '&' :: 'l' :: 't' :: ';' :: escapeHtmlL cs
  | '>' :: cs => '&' :: 'g' :: 't' :: ';' :: escapeHtmlL cs
  | c :: cs => c :: escapeHtmlL cs

/-- Rendering of the optional `class` attribute inside an opening tag. -/
def classAttr : Option (List String) → String
  | none => ""
  | some l => " class=\"" ++ String.mk (escapeHtmlL (String.intercalate " " l).toList) ++ "\""

/- `str(tag)`: the HTML markup of the element, tags included. -/
mutual
def serialize : Node → String
  | .text s => String.mk (escapeHtmlL s.toList)
  | .tag nm cl cs => "<" ++ nm ++ classAttr cl ++ ">" ++ serializeL cs ++ "</" ++ nm ++ ">"
def serializeL : List Node → String
  | [] => ""
  | c :: cs => serialize c ++ serializeL cs
end

/-- `soup.find('div', class_='main')` predicate: a `div` whose class list
contains `main`. -/
def isMainDiv : Node → Bool
  | .tag "div" (some cs) _ => cs.contains "main"
  | _ => false

/-- `soup.find('body')` predicate. -/
def isBodyTag : Node → Bool
  | .tag "body" _ _ => true
  | _ => false

/-- `find('div', class_='footnote')` predicate. -/
def isFootnoteDiv : Node → Bool
  | .tag "div" (some cs) _ => cs.contains "footnote"
  | _ => false

/-- `find('div', class_='copyright')` predicate. -/
def isCopyrightDiv : Node → Bool
  | .tag "div" (some cs) _ => cs.contains "copyright"
  | _ => false

/-- `find_all('span', class_='verse')` predicate: a verse marker. -/
def isVerseSpan : Node → Bool
  | .tag "span" (some cs) _ => cs.contains "verse"
  | _ => false

/-- The exact check at line 71 of `src/main.py`:
`current_element.name == 'span' and current_element.get('class') == ['wj']`
(exact list equality, not membership). -/
def isWjSpan : Node → Bool
  | .tag nm cl _ => nm == "span" && cl == some ["wj"]
  | .text _ => false

/-! ## The per-verse walk (`next_element` loop of lines 53-81) -/

/-- All strict prefixes of a path: the paths of the node's ancestors
(up to and including the document root), as visited by `element.parents`. -/
def ancestorPaths (p : List Nat) : List (List Nat) :=
  (List.range p.length).map (fun k => p.take k)

/-- `element.parent`: the node at the longest strict prefix of the path. -/
def parentNode (w : Node) (p : List Nat) : Option Node :=
  match p with
  | [] => none
  | _ :: _ => subtreeAt w p.dropLast

/-- Does some ancestor of the entry equal the given zone element
(BeautifulSoup `==`, i.e. structural equality)?  Mirrors the
`for parent in current_element.parents: if parent == footnote_div`
loops at lines 62-67. -/
def zoneAncestor (w : Node) (z : Option Node) (e : List Nat × Node) : Bool :=
  match z with
  | none => false
  | some zd => (ancestorPaths e.1).any (fun q => subtreeAt w q == some zd)

/-- The break test of lines 58-59: the current element equals the footnote
or copyright element. -/
def zoneEqHit (fz cz : Option Node) (e : List Nat × Node) : Bool :=
  (match fz with | some zd => e.2 == zd | none => false) ||
  (match cz with | some zd => e.2 == zd | none => false)

/-- The break test of lines 60-68: the current element is inside the
footnote or copyright zone by ancestry. -/
def zoneAncHit (w : Node) (fz cz : Option Node) (e : List Nat × Node) : Bool :=
  zoneAncestor w fz e || zoneAncestor w cz e

/-- What one walked-over element contributes to `content_parts`
(lines 70-81): a `span` of class exactly `['wj']` contributes its full
markup `str(tag)`; a string contributes itself unless its immediate parent
is a `span` whose classes include `wj` or `verse`; other tags contribute
nothing. -/
def contribution (w : Node) (e : List Nat × Node) : Option String :=
  match e.2 with
  | .tag nm cl _ =>
    if nm == "span" && cl == some ["wj"] then some (serialize e.2) else none
  | .text s =>
    match parentNode w e.1 with
    | some (.tag "span" (some pcs) _) =>
      if pcs.contains "wj" || pcs.contains "verse" then none else some s
    | _ => some s

/-- The break test of line 57: the current element is the next verse
marker (when one exists). -/
def nextHit (next : Option Node) (e : List Nat × Node) : Bool :=
  match next with
  | some m => e.2 == m
  | none => false

/-- The `while True` loop of lines 53-68: which of the elements following
the marker are actually walked over before a break condition fires.
`next` is `verse_tags[i+1]` when it exists. -/
def collectEntries (w : Node) (fz cz next : Option Node) :
    List (List Nat × Node) → List (List Nat × Node)
  | [] => []
  | e :: rest =>
    if nextHit next e then []
    else if zoneEqHit fz cz e then []
    else if zoneAncHit w fz cz e then []
    else e :: collectEntries w fz cz next rest

/-- All elements strictly after the node at path `p` in document order:
the `next_element` chain starting just past the marker. -/
def walkEntriesAfter (w : Node) (p : List Nat) : List (List Nat × Node) :=
  ((flattenP [] w).dropWhile (fun e => e.1 != p)).drop 1

/-- The state assembled by lines 26-41 of `extract_verses_from_html`. -/
structure Ctx where
  /-- path of the content region (`div.main`, or `body` as fallback) -/
  mp : List Nat
  /-- the content region after hyperlink removal -/
  m2 : Node
  /-- the whole working document after hyperlink removal -/
  w : Node
  /-- `main_content.find('div', class_='footnote')` -/
  fz : Option Node
  /-- `main_content.find('div', class_='copyright')` -/
  cz : Option Node
  /-- `main_content.find_all('span', class_='verse')`, with document paths -/
  markers : List (List Nat × Node)
deriving Repr

/-- Lines 27-31: locate `div.main`, falling back to `body`. -/
def mainLoc (d : Node) : Option (List Nat × Node) :=
  match findEntry isMainDiv d with
  | some e => some e
  | none => findEntry isBodyTag d

/-- Lines 26-41: locate the content region, strip hyperlinks from it,
locate the exclusion zones and the verse markers.  `none` when neither a
`div.main` nor a `body` exists. -/
def mkCtx (d : Node) : Option Ctx :=
  match mainLoc d with
  | none => none
  | some (mp, m1) =>
    let m2 := stripAnchors m1
    some { mp := mp
           m2 := m2
           w := replaceAt d mp m2
           fz := (findEntry isFootnoteDiv m2).map (fun e => e.2)
           cz := (findEntry isCopyrightDiv m2).map (fun e => e.2)
           markers := (findEntries isVerseSpan m2).map (fun e => (mp ++ e.1, e.2)) }

/-- The elements actually walked over for marker number `i` located at
entry `e`. -/
def takenEntries (c : Ctx) (i : Nat) (e : List Nat × Node) : List (List Nat × Node) :=
  collectEntries c.w c.fz c.cz ((c.markers[i + 1]?).map (fun m => m.2))
    (walkEntriesAfter c.w e.1)

/-- `content_parts` for marker number `i`. -/
def partsAt (c : Ctx) (i : Nat) (e : List Nat × Node) : List String :=
  (takenEntries c i e).filterMap (contribution c.w)

/-- Lines 83-85: `''.join(content_parts).strip()`, then the NBSP
replacement, then `' '.join(....split())`. -/
def normalizeParts (ps : List String) : String :=
  pySplitJoin (replaceNbsp (pyStrip (String.join ps)))

/-- The normalized text collected for marker number `i` (the value tested
by `if full_verse_text:`). -/
def verseTextAt (c : Ctx) (i : Nat) (e : List Nat × Node) : String :=
  normalizeParts (partsAt c i e)

/-- One record per verse marker, in document order: the parse of its label
(`int(verse_tag.get_text(strip=True))`) and its collected normalized
text. -/
def records (c : Ctx) : List (Option Int × String) :=
  c.markers.enum.map (fun ie => (pyInt (getTextStrip ie.2.2), verseTextAt c ie.1 ie.2))

/-- Python dict assignment `d[k] = v` on an insertion-ordered association
list: overwrite in place if the key exists, else append. -/
def dictInsert : List (Int × String) → Int → String → List (Int × String)
  | [], k, v => [(k, v)]
  | p :: ps, k, v => if p.1 = k then (k, v) :: ps else p :: dictInsert ps k v

/-- Python dict lookup. -/
def dictLookup (k : Int) : List (Int × String) → Option String
  | [] => none
  | p :: ps => if p.1 = k then some p.2 else dictLookup k ps

/-- The key list of the mapping. -/
def keysOf (m : List (Int × String)) : List Int := m.map (fun p => p.1)

/-- The loop body of lines 43-88 applied to the records: skip markers with
unparseable labels, skip empty texts, store `full_verse_text.strip()` under
the parsed number otherwise. -/
def buildDictFrom (acc : List (Int × String)) : List (Option Int × String) → List (Int × String)
  | [] => acc
  | (none, _) :: rs => buildDictFrom acc rs
  | (some k, t) :: rs =>
    if t = "" then buildDictFrom acc rs else buildDictFrom (dictInsert acc k (pyStrip t)) rs

/-- `extract_verses_from_html`, on an already-parsed document tree.
Returns the verse mapping as an insertion-ordered association list, or
`none` exactly where the Python function returns `None`. -/
def extract (d : Node) : Option (List (Int × String)) :=
  match mkCtx d with
  | none => none
  | some c =>
    if c.markers.isEmpty then none
    else
      let dict := buildDictFrom [] (records c)
      if dict.isEmpty then none else some dict

/-! ## The Corpus Walker chapter loop (lines 151-192 of `src/main.py`) -/

/-- What opening one chapter file can yield: absent (`FileNotFoundError`),
unreadable for another reason (any other exception), or readable content
(modelled as its parsed tree). -/
inductive ChapterFile where
  | absent
  | unreadable
  | avail (d : Node)

/-- Why the chapter loop of one book stopped. -/
inductive BookStop where
  | endOfBook
  | readError
  | fuelOut
deriving Repr, DecidableEq

/-- The `while True` chapter loop for one book: chapter `n` is read from
`fs`; absence breaks the loop normally (line 189), any other read failure
logs and breaks the loop (line 192), readable content is fed to `extract`
and saved (counted) when non-`none`.  `fuel` bounds the iteration count so
the model is total. -/
def processBook (fs : Nat → ChapterFile) : Nat → Nat → List Nat × BookStop
  | 0, _ => ([], .fuelOut)
  | fuel + 1, n =>
    match fs n with
    | .absent => ([], .endOfBook)
    | .unreadable => ([], .readError)
    | .avail d =>
      let rest := processBook fs fuel (n + 1)
      (if (extract d).isSome then n :: rest.1 else rest.1, rest.2)

/-! ## Example documents -/

/-- A verse marker `<span class="verse">label</span>`. -/
def verseSpan (label : String) : Node := .tag "span" (some ["verse"]) [.text label]

/-- An emphasis wrapper `<span class="wj">s</span>`. -/
def wjSpan (s : String) : Node := .tag "span" (some ["wj"]) [.text s]

/-- The content region `<div class="main">...</div>`. -/
def mainDiv (cs : List Node) : Node := .tag "div" (some ["main"]) cs

/-- A chapter page `<html><body>...</body></html>`. -/
def docOf (bodyKids : List Node) : Node :=
  .tag "html" none [.tag "body" none bodyKids]

example : extract (docOf [mainDiv [verseSpan "1", .text " hello  world "]]) =
    some [(1, "hello world")] := by decide
example : extract (docOf [mainDiv [verseSpan "1", .text " ", wjSpan "hello"]]) =
    some [(1, "<span class=\"wj\">hello</span>")] := by decide
example : extract (docOf [mainDiv [verseSpan "1", .text "hello "],
    .tag "a" none [.text "link text"]]) = some [(1, "hello link text")] := by decide
example : extract (docOf [mainDiv [verseSpan "1"]]) = none := by decide
example : extract (docOf [mainDiv [verseSpan "5", .text "a ", verseSpan "5"]]) =
    some [(5, "a")] := by decide
example : extract (docOf [mainDiv [verseSpan "0", .text "x"]]) = some [(0, "x")] := by decide
example : extract (docOf [mainDiv [verseSpan "3", .text "before ",
    .tag "div" (some ["footnote"]) [.text "note"]]]) = some [(3, "before")] := by decide
example : extract (docOf [mainDiv [verseSpan "1", .text "a ", verseSpan "2", .text "b"]]) =
    some [(1, "a"), (2, "b")] := by decide
example : extract (docOf [mainDiv [verseSpan "1", .text "a ",
    .tag "a" none [.text "gone"], .text " b"]]) = some [(1, "a b")] := by decide
example : extract (docOf [.text "no main"]) = none := by decide
example : extract (.text "bare") = none := by decide


/-! ## Dictionary lemmas -/

theorem dictInsert_ne_nil (m : List (Int × String)) (k : Int) (v : String) :
    dictInsert m k v ≠ [] := by
  cases m with
  | nil => simp [dictInsert]
  | cons p ps =>
    unfold dictInsert
    by_cases h : p.1 = k <;> simp [h]

theorem mem_dictInsert (m : List (Int × String)) (k : Int) (v : String)
    (x : Int × String) (hx : x ∈ dictInsert m k v) : x = (k, v) ∨ x ∈ m := by
  induction m with
  | nil => simpa [dictInsert] using hx
  | cons p ps ih =>
    unfold dictInsert at hx
    by_cases h : p.1 = k
    · simp only [h, if_true, List.mem_cons] at hx
      exact hx.imp id (fun h2 => List.mem_cons_of_mem _ h2)
    · simp only [h, if_false, List.mem_cons] at hx
      rcases hx with rfl | hx
      · exact Or.inr (List.mem_cons_self _ _)
      · exact (ih hx).imp id (fun h2 => List.mem_cons_of_mem _ h2)

theorem keysOf_dictInsert (m : List (Int × String)) (k k' : Int) (v : String) :
    k' ∈ keysOf (dictInsert m k v) ↔ k' = k ∨ k' ∈ keysOf m := by
  induction m with
  | nil => simp [dictInsert, keysOf]
  | cons p ps ih =>
    unfold dictInsert
    by_cases h : p.1 = k
    · simp only [h, if_true, keysOf, List.map_cons, List.mem_cons]
      tauto
    · simp only [h, if_false, keysOf, List.map_cons, List.mem_cons] at ih ⊢
      rw [ih]
      tauto

theorem dictLookup_dictInsert_self (m : List (Int × String)) (k : Int) (v : String) :
    dictLookup k (dictInsert m k v) = some v := by
  induction m with
  | nil => simp [dictInsert, dictLookup]
  | cons p ps ih =>
    unfold dictInsert
    by_cases h : p.1 = k
    · simp [h, dictLookup]
    · simp [h, dictLookup, ih]

theorem dictLookup_dictInsert_other (m : List (Int × String)) (k k' : Int) (v : String)
    (hne : k' ≠ k) : dictLookup k' (dictInsert m k v) = dictLookup k' m := by
  induction m with
  | nil => simp [dictInsert, dictLookup, Ne.symm hne]
  | cons p ps ih =>
    unfold dictInsert
    by_cases h : p.1 = k
    · simp [h, dictLookup, Ne.symm hne, h ▸ Ne.symm hne]
    · by_cases h2 : p.1 = k'
      · simp [h, h2, dictLookup, hne]
      · simp [h, h2, dictLookup, ih]

/-! ## Lemmas about the record fold (lines 43-88) -/

theorem buildDictFrom_ne_nil (acc : List (Int × String))
    (rs : List (Option Int × String)) (hacc : acc ≠ []) : buildDictFrom acc rs ≠ [] := by
  induction rs generalizing acc with
  | nil => simpa [buildDictFrom] using hacc
  | cons r rs ih =>
    rcases r with ⟨k, t⟩
    cases k with
    | none => exact ih acc hacc
    | some k =>
      unfold buildDictFrom
      by_cases h : t = ""
      · simp only [h, if_true]
        exact ih acc hacc
      · simp only [h, if_false]
        exact ih _ (dictInsert_ne_nil acc k (pyStrip t))

theorem keysOf_buildDictFrom (acc : List (Int × String))
    (rs : List (Option Int × String)) (k : Int) :
    k ∈ keysOf (buildDictFrom acc rs) ↔
      k ∈ keysOf acc ∨ ∃ r ∈ rs, r.1 = some k ∧ r.2 ≠ "" := by
  induction rs generalizing acc with
  | nil => simp [buildDictFrom]
  | cons r rs ih =>
    rcases r with ⟨ko, t⟩
    cases ko with
    | none =>
      unfold buildDictFrom
      rw [ih]
      simp
    | some k0 =>
      unfold buildDictFrom
      by_cases h : t = ""
      · simp only [h, if_true]
        rw [ih]
        simp [h]
      · simp only [h, if_false]
        rw [ih, keysOf_dictInsert]
        constructor
        · rintro ((rfl | hk) | ⟨r, hr, h1, h2⟩)
          · exact Or.inr ⟨(some k, t), List.mem_cons_self _ _, rfl, h⟩
          · exact Or.inl hk
          · exact Or.inr ⟨r, List.mem_cons_of_mem _ hr, h1, h2⟩
        · rintro (hk | ⟨r, hr, h1, h2⟩)
          · exact Or.inl (Or.inr hk)
          · rcases List.mem_cons.1 hr with rfl | hr'
            · simp only [Option.some.injEq] at h1
              exact Or.inl (Or.inl h1.symm)
            · exact Or.inr ⟨r, hr', h1, h2⟩

theorem buildDictFrom_eq_nil_iff (acc : List (Int × String))
    (rs : List (Option Int × String)) :
    buildDictFrom acc rs = [] ↔ acc = [] ∧ ∀ r ∈ rs, r.1 = none ∨ r.2 = "" := by
  induction rs generalizing acc with
  | nil => simp [buildDictFrom]
  | cons r rs ih =>
    rcases r with ⟨ko, t⟩
    cases ko with
    | none =>
      unfold buildDictFrom
      rw [ih]
      simp
    | some k0 =>
      unfold buildDictFrom
      by_cases h : t = ""
      · simp only [h, if_true]
        rw [ih]
        simp [h]
      · simp only [h, if_false]
        rw [ih]
        simp only [List.mem_cons]
        constructor
        · rintro ⟨hnil, _⟩
          exact absurd hnil (dictInsert_ne_nil acc k0 (pyStrip t))
        · rintro ⟨_, hall⟩
          rcases hall (some k0, t) (Or.inl rfl) with hc | hc <;> simp [h] at hc

theorem mem_buildDictFrom (acc : List (Int × String))
    (rs : List (Option Int × String)) (x : Int × String)
    (hx : x ∈ buildDictFrom acc rs) :
    x ∈ acc ∨ ∃ r ∈ rs, ∃ k, r.1 = some k ∧ r.2 ≠ "" ∧ x = (k, pyStrip r.2) := by
  induction rs generalizing acc with
  | nil => exact Or.inl (by simpa [buildDictFrom] using hx)
  | cons r rs ih =>
    rcases r with ⟨ko, t⟩
    cases ko with
    | none =>
      unfold buildDictFrom at hx
      rcases ih acc hx with h1 | ⟨r, hr, k, h1, h2, h3⟩
      · exact Or.inl h1
      · exact Or.inr ⟨r, List.mem_cons_of_mem _ hr, k, h1, h2, h3⟩
    | some k0 =>
      unfold buildDictFrom at hx
      by_cases h : t = ""
      · simp only [h, if_true] at hx
        rcases ih acc hx with h1 | ⟨r, hr, k, h1, h2, h3⟩
        · exact Or.inl h1
        · exact Or.inr ⟨r, List.mem_cons_of_mem _ hr, k, h1, h2, h3⟩
      · simp only [h, if_false] at hx
        rcases ih _ hx with h1 | ⟨r, hr, k, h1, h2, h3⟩
        · rcases mem_dictInsert acc k0 (pyStrip t) x h1 with rfl | h2
          · exact Or.inr ⟨(some k0, t), List.mem_cons_self _ _, k0, rfl, h, rfl⟩
          · exact Or.inl h2
        · exact Or.inr ⟨r, List.mem_cons_of_mem _ hr, k, h1, h2, h3⟩

theorem dictLookup_buildDictFrom (acc : List (Int × String))
    (rs : List (Option Int × String)) (k : Int) :
    dictLookup k (buildDictFrom acc rs) =
      match rs.reverse.find? (fun r => r.1 == some k && r.2 != "") with
      | some r => some (pyStrip r.2)
      | none => dictLookup k acc := by
  induction rs generalizing acc with
  | nil => simp [buildDictFrom]
  | cons r rs ih =>
    rw [List.reverse_cons, List.find?_append]
    rcases r with ⟨ko, t⟩
    cases ko with
    | none =>
      unfold buildDictFrom
      rw [ih]
      cases hF : rs.reverse.find? (fun r => r.1 == some k && r.2 != "") with
      | none => simp [hF, List.find?, Option.or]
      | some r2 => simp [hF, Option.or]
    | some k0 =>
      unfold buildDictFrom
      by_cases h : t = ""
      · simp only [h, if_true]
        rw [ih]
        cases hF : rs.reverse.find? (fun r => r.1 == some k && r.2 != "") with
        | none => simp [hF, List.find?, Option.or]
        | some r2 => simp [hF, Option.or]
      · simp only [h, if_false]
        rw [ih]
        have ht : (t != "") = true := by simp [h]
        cases hF : rs.reverse.find? (fun r => r.1 == some k && r.2 != "") with
        | none =>
          by_cases hk : k0 = k
          · subst hk
            simp [hF, List.find?, Option.or, ht, dictLookup_dictInsert_self]
          · have hkk : ((some k0 : Option Int) == some k) = false := by simp [hk]
            simp [hF, List.find?, Option.or, hkk,
              dictLookup_dictInsert_other acc k0 k (pyStrip t) (Ne.symm hk)]
        | some r2 => simp [hF, Option.or]

/-! ## Whitespace-normalization lemmas (lines 83-88) -/

/-- No two adjacent whitespace characters. -/
def sepOk (a b : Char) : Prop := isPySpace a = false ∨ isPySpace b = false

instance : DecidableRel sepOk := fun a b => inferInstanceAs (Decidable (_ ∨ _))

/-- The output shape promised for every stored verse text: no non-breaking
space survives, every whitespace character is a single ordinary space, and
there is no leading or trailing whitespace. -/
def NormalizedOut (l : List Char) : Prop :=
  (∀ c ∈ l, c ≠ '\xA0' ∧ (isPySpace c = true → c = ' ')) ∧
  l.head?.all (fun c => !isPySpace c) = true ∧
  l.getLast?.all (fun c => !isPySpace c) = true ∧
  List.Chain' sepOk l

instance (l : List Char) : Decidable (NormalizedOut l) :=
  inferInstanceAs (Decidable (_ ∧ _ ∧ _ ∧ _))

theorem pyWordsAux_spec : ∀ (cs acc : List Char),
    (∀ c ∈ acc, isPySpace c = false) →
    ∀ w ∈ pyWordsAux cs acc, w ≠ [] ∧ ∀ c ∈ w, isPySpace c = false ∧ (c ∈ cs ∨ c ∈ acc)
  | [], acc => by
    intro hacc w hw
    unfold pyWordsAux at hw
    by_cases h : acc.isEmpty
    · simp [h] at hw
    · rw [if_neg h, List.mem_singleton] at hw
      subst hw
      refine ⟨by simpa [List.isEmpty_iff] using h, fun c hc => ?_⟩
      rw [List.mem_reverse] at hc
      exact ⟨hacc c hc, Or.inr hc⟩
  | c :: cs, acc => by
    intro hacc w hw
    unfold pyWordsAux at hw
    by_cases hsp : isPySpace c
    · simp only [hsp, if_true] at hw
      by_cases h : acc.isEmpty
      · rw [if_pos h] at hw
        obtain ⟨h1, h2⟩ := pyWordsAux_spec cs [] (by simp) w hw
        exact ⟨h1, fun d hd => ⟨(h2 d hd).1,
          Or.inl (List.mem_cons_of_mem _ ((h2 d hd).2.resolve_right (by simp)))⟩⟩
      · rw [if_neg h, List.mem_cons] at hw
        rcases hw with rfl | hw
        · refine ⟨by simpa [List.isEmpty_iff] using h, fun d hd => ?_⟩
          rw [List.mem_reverse] at hd
          exact ⟨hacc d hd, Or.inr hd⟩
        · obtain ⟨h1, h2⟩ := pyWordsAux_spec cs [] (by simp) w hw
          exact ⟨h1, fun d hd => ⟨(h2 d hd).1,
            Or.inl (List.mem_cons_of_mem _ ((h2 d hd).2.resolve_right (by simp)))⟩⟩
    · simp only [hsp, if_false] at hw
      have hacc2 : ∀ d ∈ c :: acc, isPySpace d = false := by
        intro d hd
        rcases List.mem_cons.1 hd with rfl | hd
        · exact Bool.not_eq_true _ ▸ (by simpa using hsp)
        · exact hacc d hd
      obtain ⟨h1, h2⟩ := pyWordsAux_spec cs (c :: acc) hacc2 w hw
      refine ⟨h1, fun d hd => ⟨(h2 d hd).1, ?_⟩⟩
      rcases (h2 d hd).2 with hin | hin
      · exact Or.inl (List.mem_cons_of_mem _ hin)
      · rcases List.mem_cons.1 hin with rfl | hin
        · exact Or.inl (List.mem_cons_self _ _)
        · exact Or.inr hin

theorem joinWordsSp_ne_nil (w : List Char) (ws : List (List Char)) (hw : w ≠ []) :
    joinWordsSp (w :: ws) ≠ [] := by
  cases ws with
  | nil => simpa [joinWordsSp] using hw
  | cons w2 ws => simp [joinWordsSp]

theorem chain_append_of_left_clean : ∀ (w t : List Char),
    (∀ c ∈ w, isPySpace c = false) → List.Chain' sepOk t → List.Chain' sepOk (w ++ t)
  | [], t => fun _ ht => ht
  | [a], t => by
    intro hw ht
    cases t with
    | nil => simp
    | cons b t' =>
      rw [List.singleton_append, List.chain'_cons]
      exact ⟨Or.inl (hw a (List.mem_singleton_self a)), ht⟩
  | a :: a2 :: w', t => by
    intro hw ht
    rw [List.cons_append, List.cons_append, List.chain'_cons, ← List.cons_append]
    refine ⟨Or.inl (hw a (List.mem_cons_self _ _)), ?_⟩
    exact chain_append_of_left_clean (a2 :: w') t (fun c hc => hw c (List.mem_cons_of_mem _ hc)) ht

theorem joinWordsSp_normalized : ∀ ws : List (List Char),
    (∀ w ∈ ws, w ≠ [] ∧ ∀ c ∈ w, isPySpace c = false ∧ c ≠ '\xA0') →
    NormalizedOut (joinWordsSp ws)
  | [] => fun _ => by decide
  | [w] => by
    intro h
    rcases h w (List.mem_singleton_self w) with ⟨hne, hc⟩
    refine ⟨fun c hcw => ⟨(hc c hcw).2, fun hsp => absurd hsp (by simp [(hc c hcw).1])⟩,
      ?_, ?_, ?_⟩
    · unfold joinWordsSp
      cases w with
      | nil => simp
      | cons a w' => simpa using (hc a (List.mem_cons_self _ _)).1
    · unfold joinWordsSp
      cases hL : w.getLast? with
      | none => simp [hL]
      | some a =>
        have hmem : a ∈ w.getLast? := by simp [hL]
        obtain ⟨hne2, rfl⟩ := List.mem_getLast?_eq_getLast hmem
        simp [hL, (hc _ (List.getLast_mem hne2)).1]
    · show List.Chain' sepOk w
      have := chain_append_of_left_clean w [] (fun c hcw => (hc c hcw).1) (by simp)
      simpa using this
  | w :: w2 :: ws => by
    intro h
    rcases h w (List.mem_cons_self _ _) with ⟨hne, hcw⟩
    have hrest : NormalizedOut (joinWordsSp (w2 :: ws)) :=
      joinWordsSp_normalized (w2 :: ws) (fun v hv => h v (List.mem_cons_of_mem _ hv))
    have hrne : joinWordsSp (w2 :: ws) ≠ [] :=
      joinWordsSp_ne_nil w2 ws (h w2 (List.mem_cons_of_mem _ (List.mem_cons_self _ _))).1
    have hjoin : joinWordsSp (w :: w2 :: ws) = w ++ ' ' :: joinWordsSp (w2 :: ws) := rfl
    rw [hjoin]
    rcases hrest with ⟨r1, r2, r3, r4⟩
    refine ⟨?_, ?_, ?_, ?_⟩
    · intro c hc
      rcases List.mem_append.1 hc with hc | hc
      · exact ⟨(hcw c hc).2, fun hsp => absurd hsp (by simp [(hcw c hc).1])⟩
      · rcases List.mem_cons.1 hc with rfl | hc
        · exact ⟨by decide, fun _ => rfl⟩
        · exact r1 c hc
    · cases w with
      | nil => exact absurd rfl hne
      | cons a w' => simpa using (hcw a (List.mem_cons_self _ _)).1
    · rw [List.getLast?_append_cons, show (' ' :: joinWordsSp (w2 :: ws) : List Char) =
        [' '] ++ joinWordsSp (w2 :: ws) from rfl,
        List.getLast?_append_of_ne_nil [' '] hrne]
      exact r3
    · refine chain_append_of_left_clean w _ (fun c hc => (hcw c hc).1) ?_
      cases hJ : joinWordsSp (w2 :: ws) with
      | nil => exact absurd hJ hrne
      | cons b t' =>
        rw [List.chain'_cons]
        refine ⟨Or.inr ?_, hJ ▸ r4⟩
        have : (joinWordsSp (w2 :: ws)).head?.all (fun c => !isPySpace c) = true := r2
        rw [hJ] at this
        simpa using this

theorem pySplitJoin_normalized (s : String) (h : ∀ c ∈ s.toList, c ≠ '\xA0') :
    NormalizedOut (pySplitJoin s).toList := by
  show NormalizedOut (joinWordsSp (pyWords s.toList))
  apply joinWordsSp_normalized
  intro w hw
  obtain ⟨h1, h2⟩ := pyWordsAux_spec s.toList [] (by simp) w hw
  exact ⟨h1, fun c hc => ⟨(h2 c hc).1, h c ((h2 c hc).2.resolve_right (by simp))⟩⟩

theorem replaceNbsp_no_nbsp (s : String) : ∀ c ∈ (replaceNbsp s).toList, c ≠ '\xA0' := by
  intro c hc
  have hc2 : c ∈ s.toList.map (fun c => if c == '\xA0' then ' ' else c) := hc
  rcases List.mem_map.1 hc2 with ⟨a, _, rfl⟩
  by_cases ha : a = '\xA0'
  · simp [ha]
  · simp [ha]

theorem dropWhile_eq_self_of_head (l : List Char)
    (hh : l.head?.all (fun c => !isPySpace c) = true) : l.dropWhile isPySpace = l := by
  cases l with
  | nil => rfl
  | cons a t =>
    have : isPySpace a = false := by simpa using hh
    simp [List.dropWhile_cons, this]

theorem pyStripL_of_normalized (l : List Char) (h : NormalizedOut l) : pyStripL l = l := by
  rcases h with ⟨_, h2, h3, _⟩
  unfold pyStripL
  rw [dropWhile_eq_self_of_head l h2]
  rw [dropWhile_eq_self_of_head l.reverse (by rw [List.head?_reverse]; exact h3)]
  exact List.reverse_reverse l

theorem normalizeParts_normalized (ps : List String) :
    NormalizedOut (normalizeParts ps).toList := by
  unfold normalizeParts
  exact pySplitJoin_normalized _ (replaceNbsp_no_nbsp _)

theorem pyStrip_normalizeParts (ps : List String) :
    pyStrip (normalizeParts ps) = normalizeParts ps := by
  show String.mk (pyStripL (normalizeParts ps).toList) = normalizeParts ps
  rw [pyStripL_of_normalized _ (normalizeParts_normalized ps)]
  rfl

theorem records_snd_shape (c : Ctx) (r : Option Int × String) (hr : r ∈ records c) :
    ∃ i e, r.2 = normalizeParts (partsAt c i e) := by
  unfold records at hr
  rcases List.mem_map.1 hr with ⟨ie, _, rfl⟩
  exact ⟨ie.1, ie.2, rfl⟩

/-! ## Extract-level lemmas -/

theorem extract_some (d : Node) (m : List (Int × String)) (h : extract d = some m) :
    ∃ c, mkCtx d = some c ∧ m = buildDictFrom [] (records c) := by
  unfold extract at h
  cases hc : mkCtx d with
  | none => rw [hc] at h; cases h
  | some c =>
    rw [hc] at h
    dsimp only at h
    by_cases hm : c.markers.isEmpty
    · rw [if_pos hm] at h; cases h
    · rw [if_neg hm] at h
      by_cases hd : (buildDictFrom [] (records c)).isEmpty
      · rw [if_pos hd] at h; cases h
      · rw [if_neg hd] at h
        injection h with h2
        exact ⟨c, rfl, h2.symm⟩

theorem records_nonempty_marker (c : Ctx) (r : Option Int × String)
    (hr : r ∈ records c) : ¬c.markers.isEmpty = true := by
  intro hm
  unfold records at hr
  rw [List.isEmpty_iff.1 hm] at hr
  simp at hr

/-- A placeholder context (used only to name the computed context of
concrete example documents). -/
def ctxDefault : Ctx :=
  { mp := [], m2 := .text "", w := .text "", fz := none, cz := none, markers := [] }

/-- C5: on the tree model `extract` is a total function — no exception can
escape (the Python routine wraps its body in `try/except` and converts any
failure to `None`) — and it returns `none` exactly when no `div.main` and
no `body` exists, or no verse-marker element is found, or no marker yields
a record with a parseable label and non-empty normalized text; in every
other case it returns a non-empty mapping.  (Unparseable raw HTML has no
tree to model; that failure path also returns `None` in the source.) -/
theorem extract_none_characterization (d : Node) :
    (extract d = none ↔
      mkCtx d = none ∨ ∃ c, mkCtx d = some c ∧
        (c.markers = [] ∨ ∀ r ∈ records c, r.1 = none ∨ r.2 = "")) ∧
    (∀ m, extract d = some m → m ≠ []) := by
  cases hc : mkCtx d with
  | none =>
    refine ⟨?_, ?_⟩
    · unfold extract
      rw [hc]
      simp
    · intro m hm
      unfold extract at hm
      rw [hc] at hm
      cases hm
  | some c =>
    refine ⟨?_, ?_⟩
    · unfold extract
      rw [hc]
      dsimp only
      by_cases hm : c.markers.isEmpty
      · rw [if_pos hm]
        constructor
        · intro _
          exact Or.inr ⟨c, rfl, Or.inl (List.isEmpty_iff.1 hm)⟩
        · intro _
          rfl
      · rw [if_neg hm]
        by_cases hd : (buildDictFrom [] (records c)).isEmpty
        · rw [if_pos hd]
          constructor
          · intro _
            exact Or.inr ⟨c, rfl,
              Or.inr ((buildDictFrom_eq_nil_iff [] (records c)).1 (List.isEmpty_iff.1 hd)).2⟩
          · intro _
            rfl
        · rw [if_neg hd]
          constructor
          · intro hcon
            cases hcon
          · rintro (hno | ⟨c2, hc2, hrest⟩)
            · cases hno
            · injection hc2 with he
              subst he
              rcases hrest with hmk | hall
              · exact absurd (List.isEmpty_iff.2 hmk) hm
              · exact absurd
                  (List.isEmpty_iff.2 ((buildDictFrom_eq_nil_iff [] (records c)).2 ⟨rfl, hall⟩)) hd
    · intro m hm2 hnil
      unfold extract at hm2
      rw [hc] at hm2
      dsimp only at hm2
      by_cases hmk : c.markers.isEmpty
      · rw [if_pos hmk] at hm2; cases hm2
      · rw [if_neg hmk] at hm2
        by_cases hd : (buildDictFrom [] (records c)).isEmpty
        · rw [if_pos hd] at hm2; cases hm2
        · rw [if_neg hd] at hm2
          injection hm2 with h2
          rw [hnil] at h2
          exact hd (List.isEmpty_iff.2 h2)

/-- Witness for C5 at a concrete document. -/
theorem extract_none_characterization_witness :
    extract (docOf [mainDiv [verseSpan "1", .text "hi"]]) = some [(1, "hi")] ∧
    ([((1 : Int), "hi")] : List (Int × String)) ≠ [] :=
  ⟨by decide,
    (extract_none_characterization (docOf [mainDiv [verseSpan "1", .text "hi"]])).2
      [(1, "hi")] (by decide)⟩

/-- C6: every verse text stored in a returned mapping is normalized — no
non-breaking space survives (each was replaced by an ordinary space), every
whitespace character in it is a single ordinary space (runs of
tabs/newlines/spaces are collapsed), and there is no leading or trailing
whitespace. -/
theorem extract_values_normalized (d : Node) (m : List (Int × String))
    (h : extract d = some m) : ∀ kv ∈ m, NormalizedOut kv.2.toList := by
  obtain ⟨c, _, rfl⟩ := extract_some d m h
  intro kv hkv
  rcases mem_buildDictFrom [] (records c) kv hkv with h1 | ⟨r, hr, k, _, _, rfl⟩
  · simp at h1
  · obtain ⟨i, e, he⟩ := records_snd_shape c r hr
    show NormalizedOut (pyStrip r.2).toList
    rw [he, pyStrip_normalizeParts]
    exact normalizeParts_normalized _

/-- Witness for C6 at a concrete document whose raw text carries a
non-breaking space, a run of spaces, and surrounding whitespace. -/
theorem extract_values_normalized_witness :
    extract (docOf [mainDiv [verseSpan "1", .text " a\xA0 b "]]) = some [(1, "a b")] ∧
    ∀ kv ∈ [((1 : Int), "a b")], NormalizedOut kv.2.toList :=
  ⟨by decide,
    extract_values_normalized (docOf [mainDiv [verseSpan "1", .text " a\xA0 b "]])
      [(1, "a b")] (by decide)⟩

/-- C1 (amended): for every document with at least one verse marker whose
label parses to an integer and whose collected normalized text is
non-empty, `extract` returns a non-`none` mapping whose key set is exactly
the set of parsed labels of markers with non-empty collected text.  (The
claim as stated — requiring only a parseable label — is refuted by
`extract_keySet_exact_cex`: a marker with a parseable label but empty text
yields `none`.) -/
theorem extract_keySet_exact (d : Node) (c : Ctx) (hc : mkCtx d = some c)
    (hex : ∃ r ∈ records c, r.1 ≠ none ∧ r.2 ≠ "") :
    ∃ m, extract d = some m ∧
      ∀ k : Int, k ∈ keysOf m ↔ ∃ r ∈ records c, r.1 = some k ∧ r.2 ≠ "" := by
  obtain ⟨r0, hr0, h1, h2⟩ := hex
  have hmk : ¬c.markers.isEmpty = true := records_nonempty_marker c r0 hr0
  have hd : buildDictFrom [] (records c) ≠ [] := by
    intro hnil
    rcases ((buildDictFrom_eq_nil_iff [] (records c)).1 hnil).2 r0 hr0 with hco | hco
    · exact h1 hco
    · exact h2 hco
  refine ⟨buildDictFrom [] (records c), ?_, fun k => ?_⟩
  · unfold extract
    rw [hc]
    dsimp only
    rw [if_neg hmk, if_neg (fun hco => hd (List.isEmpty_iff.1 hco))]
  · rw [keysOf_buildDictFrom]
    constructor
    · rintro (hk | hk)
      · simp [keysOf] at hk
      · exact hk
    · exact Or.inr

/-- C1 is false as stated: this document's single verse marker has the
parseable label `1`, yet `extract` returns `none` (empty collected text is
dropped and an empty mapping becomes `None`), not a mapping. -/
theorem extract_keySet_exact_cex :
    extract (docOf [mainDiv [verseSpan "1"]]) = none ∧
    (mkCtx (docOf [mainDiv [verseSpan "1"]])).map records = some [(some 1, "")] :=
  ⟨by decide, by decide⟩

/-- The context computed for the C1 witness document. -/
def ctxC1w : Ctx := (mkCtx (docOf [mainDiv [verseSpan "1", .text "In the beginning"]])).getD ctxDefault

/-- Witness for C1 (amended) at a concrete document. -/
theorem extract_keySet_exact_witness :
    (∃ r ∈ records ctxC1w, r.1 ≠ none ∧ r.2 ≠ "") ∧
    ∃ m, extract (docOf [mainDiv [verseSpan "1", .text "In the beginning"]]) = some m ∧
      ∀ k : Int, k ∈ keysOf m ↔ ∃ r ∈ records ctxC1w, r.1 = some k ∧ r.2 ≠ "" :=
  ⟨by decide,
    extract_keySet_exact (docOf [mainDiv [verseSpan "1", .text "In the beginning"]])
      ctxC1w rfl (by decide)⟩

/-- C9 (amended): every key of a returned mapping is the integer parse of
some verse marker's label with non-empty collected text — but nothing
forces it to be positive: labels parsing to `0` or a negative integer are
recorded unchanged (see `extract_keys_positive_cex`). -/
theorem extract_keys_from_labels (d : Node) (m : List (Int × String))
    (h : extract d = some m) :
    ∃ c, mkCtx d = some c ∧
      ∀ k ∈ keysOf m, ∃ r ∈ records c, r.1 = some k ∧ r.2 ≠ "" := by
  obtain ⟨c, hc, rfl⟩ := extract_some d m h
  refine ⟨c, hc, fun k hk => ?_⟩
  rcases (keysOf_buildDictFrom [] (records c) k).1 hk with h1 | h2
  · simp [keysOf] at h1
  · exact h2

/-- C9 is false as stated: a marker labeled `0` (not a positive integer)
is recorded under key `0`. -/
theorem extract_keys_positive_cex :
    extract (docOf [mainDiv [verseSpan "0", .text "x"]]) = some [(0, "x")] ∧
    (0 : Int) ∈ keysOf [((0 : Int), "x")] ∧ ¬(0 : Int) > 0 :=
  ⟨by decide, by decide, by decide⟩

/-- Witness for C9 (amended) at a concrete document. -/
theorem extract_keys_from_labels_witness :
    extract (docOf [mainDiv [verseSpan "2", .text "y"]]) = some [(2, "y")] ∧
    ∃ c, mkCtx (docOf [mainDiv [verseSpan "2", .text "y"]]) = some c ∧
      ∀ k ∈ keysOf [((2 : Int), "y")], ∃ r ∈ records c, r.1 = some k ∧ r.2 ≠ "" :=
  ⟨by decide,
    extract_keys_from_labels (docOf [mainDiv [verseSpan "2", .text "y"]]) [(2, "y")] (by decide)⟩

/-! ## Exclusion-zone and emphasis-wrapper lemmas (C2, C3) -/

theorem mem_collectEntries (w : Node) (fz cz next : Option Node)
    (l : List (List Nat × Node)) (x : List Nat × Node)
    (hx : x ∈ collectEntries w fz cz next l) :
    zoneEqHit fz cz x = false ∧ zoneAncHit w fz cz x = false := by
  induction l with
  | nil => simp [collectEntries] at hx
  | cons e rest ih =>
    unfold collectEntries at hx
    by_cases h1 : nextHit next e = true
    · rw [if_pos h1] at hx; cases hx
    · rw [if_neg h1] at hx
      by_cases h2 : zoneEqHit fz cz e = true
      · rw [if_pos h2] at hx; cases hx
      · rw [if_neg h2] at hx
        by_cases h3 : zoneAncHit w fz cz e = true
        · rw [if_pos h3] at hx; cases hx
        · rw [if_neg h3] at hx
          rcases List.mem_cons.1 hx with rfl | hx2
          · exact ⟨Bool.not_eq_true _ ▸ h2, Bool.not_eq_true _ ▸ h3⟩
          · exact ih hx2

/-- C3 (amended): for every document and every verse walk, no element
taken by the walk — the only source of plain-text parts — is the located
footnote or copyright element, nor has either among its ancestors: the
walk breaks at or before any such element, so no text unit inside a zone
is ever collected as a plain-text contribution.  The claim as stated (zone
text never appears in any verse's TEXT) is false: when a zone element is
nested inside an emphasis wrapper, the wrapper is itself a taken entry and
line 72 appends `str(tag)` — its full serialization, the nested zone's
text included — into the verse (`zone_text_leak_cex`). -/
theorem taken_outside_zones (d : Node) (c : Ctx) (hc : mkCtx d = some c)
    (i : Nat) (e x : List Nat × Node) (hx : x ∈ takenEntries c i e) :
    zoneEqHit c.fz c.cz x = false ∧ zoneAncHit c.w c.fz c.cz x = false :=
  mem_collectEntries c.w c.fz c.cz _ _ x hx

/-- The context computed for the C3 witness document (one verse followed by
a footnote zone). -/
def ctxC3w : Ctx :=
  (mkCtx (docOf [mainDiv [verseSpan "3", .text "before ",
    .tag "div" (some ["footnote"]) [.text "note"]]])).getD ctxDefault

/-- Witness for C3: in a document with a footnote zone, the text unit
taken for verse 3 hits neither zone. -/
theorem taken_outside_zones_witness :
    (([0, 0, 1], Node.text "before ") ∈ takenEntries ctxC3w 0 ([0, 0, 0], verseSpan "3")) ∧
    zoneEqHit ctxC3w.fz ctxC3w.cz ([0, 0, 1], Node.text "before ") = false ∧
    zoneAncHit ctxC3w.w ctxC3w.fz ctxC3w.cz ([0, 0, 1], Node.text "before ") = false :=
  ⟨by decide,
    taken_outside_zones
      (docOf [mainDiv [verseSpan "3", .text "before ",
        .tag "div" (some ["footnote"]) [.text "note"]]])
      ctxC3w rfl 0 ([0, 0, 0], verseSpan "3") ([0, 0, 1], Node.text "before ") (by decide)⟩

/-- C3 is false as stated: a footnote zone nested inside an emphasis
wrapper leaks its text into the verse.  The wrapper is walked over before
the walk reaches the zone, and its contribution `str(tag)` serializes the
whole subtree, so the verse text contains the zone's text "note" even
though the footnote element was located (`fz`) and the walk then breaks at
it. -/
theorem zone_text_leak_cex :
    extract (docOf [mainDiv [verseSpan "1",
      .tag "span" (some ["wj"]) [.text "hi", .tag "div" (some ["footnote"]) [.text "note"]]]]) =
      some [(1, "<span class=\"wj\">hi<div class=\"footnote\">note</div></span>")] ∧
    (mkCtx (docOf [mainDiv [verseSpan "1",
      .tag "span" (some ["wj"]) [.text "hi", .tag "div" (some ["footnote"]) [.text "note"]]]])).map
        (fun c => c.fz) =
      some (some (.tag "div" (some ["footnote"]) [.text "note"])) :=
  ⟨by decide, by decide⟩

/-- C2 (amended): a walked-over emphasis wrapper (`span` of class exactly
`['wj']`) contributes exactly `str(tag)` — its full serialization, tags
included, NOT its text with markup stripped — as a single part of the
verse, and a text unit whose immediate parent is such a wrapper contributes
nothing (no double-collection).  The claim as stated (markup removed) is
refuted by `wj_markup_retained_cex`. -/
theorem wj_contribution (d : Node) (c : Ctx) (hc : mkCtx d = some c)
    (i : Nat) (e x : List Nat × Node) (hx : x ∈ takenEntries c i e) :
    (isWjSpan x.2 = true →
      contribution c.w x = some (serialize x.2) ∧ serialize x.2 ∈ partsAt c i e) ∧
    (∀ s pcs kids, x.2 = Node.text s →
      parentNode c.w x.1 = some (Node.tag "span" (some pcs) kids) →
      pcs.contains "wj" = true → contribution c.w x = none) := by
  constructor
  · intro hwj
    have hcon : contribution c.w x = some (serialize x.2) := by
      rcases x with ⟨p, n⟩
      cases n with
      | text s => simp [isWjSpan] at hwj
      | tag nm cl kids =>
        unfold isWjSpan at hwj
        show (if nm == "span" && cl == some ["wj"] then
          some (serialize (Node.tag nm cl kids)) else none) = some (serialize (Node.tag nm cl kids))
        rw [if_pos hwj]
    refine ⟨hcon, ?_⟩
    unfold partsAt
    exact List.mem_filterMap.2 ⟨x, hx, hcon⟩
  · intro s pcs kids hxn hpar hwj
    have hor : (pcs.contains "wj" || pcs.contains "verse") = true := by
      rw [hwj, Bool.true_or]
    rcases x with ⟨p, n⟩
    simp only at hxn
    subst hxn
    simp only at hpar
    show (match parentNode c.w p with
      | some (.tag "span" (some pcs2) _) =>
        if pcs2.contains "wj" || pcs2.contains "verse" then none else some s
      | _ => some s) = none
    rw [hpar]
    have hred : (match some (Node.tag "span" (some pcs) kids) with
      | some (.tag "span" (some pcs2) _) =>
        if pcs2.contains "wj" || pcs2.contains "verse" then none else some s
      | _ => some s) = (if pcs.contains "wj" || pcs.contains "verse" then none else some s) := rfl
    rw [hred, if_pos hor]

/-- C2 is false as stated: the emphasis wrapper's markup is NOT stripped —
`content_parts.append(str(current_element))` keeps the tags, so the
returned verse text contains the full `<span class="wj">...</span>`
serialization rather than the bare inner text. -/
theorem wj_markup_retained_cex :
    extract (docOf [mainDiv [verseSpan "1", .text " ", wjSpan "hello"]]) =
      some [(1, "<span class=\"wj\">hello</span>")] ∧
    '<' ∈ ("<span class=\"wj\">hello</span>" : String).toList :=
  ⟨by decide, by decide⟩

/-- The context computed for the C2 witness document. -/
def ctxC2w : Ctx :=
  (mkCtx (docOf [mainDiv [verseSpan "1", .text " ", wjSpan "hello"]])).getD ctxDefault

/-- Witness for C2 (amended): the wj span walked over for verse 1
contributes exactly its serialization to the collected parts. -/
theorem wj_contribution_witness :
    (([0, 0, 2], wjSpan "hello") ∈ takenEntries ctxC2w 0 ([0, 0, 0], verseSpan "1")) ∧
    isWjSpan (wjSpan "hello") = true ∧
    (contribution ctxC2w.w ([0, 0, 2], wjSpan "hello") = some (serialize (wjSpan "hello")) ∧
      serialize (wjSpan "hello") ∈ partsAt ctxC2w 0 ([0, 0, 0], verseSpan "1")) :=
  ⟨by decide, by decide,
    (wj_contribution (docOf [mainDiv [verseSpan "1", .text " ", wjSpan "hello"]])
      ctxC2w rfl 0 ([0, 0, 0], verseSpan "1") ([0, 0, 2], wjSpan "hello") (by decide)).1
      (by decide)⟩

/-! ## Duplicate-label lemmas (C8, C10) -/

theorem find?_and_filter (q1 q2 : (Option Int × String) → Bool) :
    ∀ l : List (Option Int × String),
      l.find? (fun r => q1 r && q2 r) = (l.filter q1).find? q2
  | [] => rfl
  | r :: rs => by
    by_cases h1 : q1 r
    · rw [List.filter_cons_of_pos h1]
      by_cases h2 : q2 r
      · rw [List.find?_cons_of_pos _ (by simp [h1, h2]), List.find?_cons_of_pos _ h2]
      · rw [List.find?_cons_of_neg _ (by simp [h2]), List.find?_cons_of_neg _ h2]
        exact find?_and_filter q1 q2 rs
    · rw [List.filter_cons_of_neg h1, List.find?_cons_of_neg _ (by simp [h1])]
      exact find?_and_filter q1 q2 rs

/-- C8 (amended): for a document whose verse records are exactly two
markers bearing the same parseable label `k`, where the second
occurrence's normalized text is non-empty, the returned mapping has
exactly one entry, for key `k`, and its value is the stored text of the
second occurrence.  (Without the non-emptiness proviso the claim fails:
`duplicate_label_last_wins_cex`.  What happens when the second text is
empty is C10's subject.) -/
theorem duplicate_label_last_wins (d : Node) (c : Ctx) (hc : mkCtx d = some c)
    (k : Int) (t1 t2 : String) (hr : records c = [(some k, t1), (some k, t2)])
    (ht2 : t2 ≠ "") : extract d = some [(k, pyStrip t2)] := by
  have hmk : ¬c.markers.isEmpty = true :=
    records_nonempty_marker c (some k, t1) (by rw [hr]; exact List.mem_cons_self _ _)
  unfold extract
  rw [hc]
  dsimp only
  rw [if_neg hmk, hr]
  by_cases h1 : t1 = ""
  · subst h1
    simp [buildDictFrom, ht2, dictInsert]
  · simp [buildDictFrom, h1, ht2, dictInsert]

/-- C8 is false as stated: two markers both labeled 5, where the second
yields empty text — the mapping keeps ONE entry for key 5, but its value
is the FIRST occurrence's text, not the second's (which is ""). -/
theorem duplicate_label_last_wins_cex :
    extract (docOf [mainDiv [verseSpan "5", .text "a ", verseSpan "5"]]) = some [(5, "a")] ∧
    (mkCtx (docOf [mainDiv [verseSpan "5", .text "a ", verseSpan "5"]])).map records =
      some [(some 5, "a"), (some 5, "")] ∧
    ("a" : String) ≠ "" :=
  ⟨by decide, by decide, by decide⟩

/-- The context computed for the C8 witness document. -/
def ctxC8w : Ctx :=
  (mkCtx (docOf [mainDiv [verseSpan "5", .text "a ", verseSpan "5", .text "b"]])).getD ctxDefault

/-- Witness for C8 (amended) at a concrete document with two markers
labeled 5 and a non-empty second text. -/
theorem duplicate_label_last_wins_witness :
    records ctxC8w = [(some 5, "a"), (some 5, "b")] ∧ ("b" : String) ≠ "" ∧
    extract (docOf [mainDiv [verseSpan "5", .text "a ", verseSpan "5", .text "b"]]) =
      some [(5, "b")] :=
  ⟨by decide, by decide,
    duplicate_label_last_wins
      (docOf [mainDiv [verseSpan "5", .text "a ", verseSpan "5", .text "b"]])
      ctxC8w rfl 5 "a" "b" (by decide) (by decide)⟩

/-- C10: when exactly two verse records carry the parseable label `k`, the
earlier one with non-empty text and the later one with empty text, the
returned mapping retains the earlier occurrence's stored text under `k`:
the empty later occurrence is dropped before insertion and overwrites
nothing. -/
theorem duplicate_label_empty_keeps_earlier (d : Node) (c : Ctx) (hc : mkCtx d = some c)
    (m : List (Int × String)) (hm : extract d = some m) (k : Int) (t1 t2 : String)
    (hf : (records c).filter (fun r => r.1 == some k) = [(some k, t1), (some k, t2)])
    (h1 : t1 ≠ "") (h2 : t2 = "") : dictLookup k m = some (pyStrip t1) := by
  obtain ⟨c2, hc2, rfl⟩ := extract_some d m hm
  rw [hc] at hc2
  injection hc2 with he
  subst he
  rw [dictLookup_buildDictFrom]
  have hfind : (records c).reverse.find? (fun r => r.1 == some k && r.2 != "") =
      some (some k, t1) := by
    rw [find?_and_filter (fun r => r.1 == some k) (fun r => r.2 != "") (records c).reverse,
      List.filter_reverse, hf]
    subst h2
    rw [show ([(some k, t1), (some k, "")] : List (Option Int × String)).reverse =
      [(some k, ""), (some k, t1)] from rfl]
    rw [List.find?_cons_of_neg _ (by simp), List.find?_cons_of_pos _ (by simp [h1])]
  rw [hfind]

/-! ## Corpus Walker claim (C4) -/

/-- C4 (amended): a chapter file that exists but is unreadable for a
reason other than absence makes the Corpus Walker log the error and STOP
processing that book — the `except Exception` arm ends the chapter loop
with `break`, abandoning the remaining chapters rather than skipping just
that chapter; plain absence ends the loop as normal book completion.
(The claim as stated — skip only that chapter and continue — is refuted by
`processBook_read_failure_cex`.) -/
theorem processBook_read_failure (fs : Nat → ChapterFile) (fuel n : Nat) :
    (fs n = .unreadable → processBook fs (fuel + 1) n = ([], .readError)) ∧
    (fs n = .absent → processBook fs (fuel + 1) n = ([], .endOfBook)) := by
  constructor <;> intro h <;> unfold processBook <;> rw [h]

/-- A book whose chapter 1 is unreadable and whose chapter 2 is readable
with a valid verse. -/
def fsC4 : Nat → ChapterFile := fun n =>
  if n = 1 then .unreadable
  else if n = 2 then .avail (docOf [mainDiv [verseSpan "1", .text "text"]])
  else .absent

/-- C4 is false as stated: chapter 1 is unreadable, chapter 2 exists and
extracts successfully, yet the walker saves nothing and stops the book at
chapter 1 — it does not continue with the remaining chapters. -/
theorem processBook_read_failure_cex :
    processBook fsC4 10 1 = ([], .readError) ∧
    fsC4 2 = .avail (docOf [mainDiv [verseSpan "1", .text "text"]]) ∧
    (extract (docOf [mainDiv [verseSpan "1", .text "text"]])).isSome = true :=
  ⟨rfl, rfl, by decide⟩

/-- Witness for C4 (amended). -/
theorem processBook_read_failure_witness :
    (fsC4 1 = ChapterFile.unreadable ∧ processBook fsC4 10 1 = ([], BookStop.readError)) ∧
    (fsC4 3 = ChapterFile.absent ∧ processBook fsC4 10 3 = ([], BookStop.endOfBook)) :=
  ⟨⟨rfl, (processBook_read_failure fsC4 9 1).1 rfl⟩,
   ⟨rfl, (processBook_read_failure fsC4 9 3).2 rfl⟩⟩

/-! ## Hyperlink-removal lemmas (C7) -/

/- No proper descendant is an `<a>` element. -/
mutual
def noAnchorInside : Node → Bool
  | .text _ => true
  | .tag _ _ cs => noAnchorInsideL cs
def noAnchorInsideL : List Node → Bool
  | [] => true
  | c :: cs => (!isAnchor c && noAnchorInside c) && noAnchorInsideL cs
end

mutual
theorem stripAnchors_clean : ∀ n : Node, noAnchorInside (stripAnchors n) = true
  | .text _ => rfl
  | .tag nm cl cs => by
    show noAnchorInsideL (stripAnchorsL cs) = true
    exact stripAnchorsL_clean cs
theorem stripAnchorsL_clean : ∀ cs : List Node, noAnchorInsideL (stripAnchorsL cs) = true
  | [] => rfl
  | c :: cs => by
    unfold stripAnchorsL
    by_cases h : isAnchor c
    · rw [if_pos h]
      simpa using stripAnchorsL_clean cs
    · rw [if_neg h]
      have hc : noAnchorInside (stripAnchors c) = true := stripAnchors_clean c
      have hna : isAnchor (stripAnchors c) = false := by
        cases c with
        | text s => rfl
        | tag nm cl kids =>
          show (nm == "a") = false
          simpa [isAnchor] using h
      simp [noAnchorInsideL, hc, hna, stripAnchorsL_clean cs]
end

theorem noAnchorInsideL_mem (cs : List Node) (c : Node)
    (h : noAnchorInsideL cs = true) (hm : c ∈ cs) :
    isAnchor c = false ∧ noAnchorInside c = true := by
  induction cs with
  | nil => cases hm
  | cons c0 cs ih =>
    unfold noAnchorInsideL at h
    rw [Bool.and_eq_true, Bool.and_eq_true] at h
    rcases List.mem_cons.1 hm with rfl | hm2
    · exact ⟨by simpa using h.1.1, h.1.2⟩
    · exact ih h.2 hm2

theorem subtreeAt_clean : ∀ (r : List Nat) (n x : Node),
    noAnchorInside n = true → subtreeAt n r = some x →
    noAnchorInside x = true ∧ (r ≠ [] → isAnchor x = false)
  | [], n, x, h, hs => by
    simp only [subtreeAt] at hs
    injection hs with he
    subst he
    exact ⟨h, fun hne => absurd rfl hne⟩
  | i :: r', n, x, h, hs => by
    cases n with
    | text s => simp [subtreeAt] at hs
    | tag nm cl cs =>
      cases hci : cs[i]? with
      | none => unfold subtreeAt at hs; rw [hci] at hs; cases hs
      | some ci =>
        unfold subtreeAt at hs
        rw [hci] at hs
        dsimp only at hs
        have hmem : ci ∈ cs := List.getElem?_mem hci
        obtain ⟨hna, hok⟩ := noAnchorInsideL_mem cs ci h hmem
        cases r' with
        | nil =>
          simp only [subtreeAt] at hs
          injection hs with he
          subst he
          exact ⟨hok, fun _ => hna⟩
        | cons j r'' =>
          obtain ⟨h1, h2⟩ := subtreeAt_clean (j :: r'') ci x hok hs
          exact ⟨h1, fun _ => h2 (by simp)⟩

theorem find?_mem_own {α : Type} (p : α → Bool) :
    ∀ (l : List α) (a : α), l.find? p = some a → a ∈ l
  | [], a, h => by simp [List.find?] at h
  | x :: xs, a, h => by
    by_cases hx : p x
    · rw [List.find?_cons_of_pos _ hx] at h
      injection h with he
      subst he
      exact List.mem_cons_self _ _
    · rw [List.find?_cons_of_neg _ hx] at h
      exact List.mem_cons_of_mem _ (find?_mem_own p xs a h)

mutual
theorem flattenP_sound : ∀ (n : Node) (pre p : List Nat) (x : Node),
    (p, x) ∈ flattenP pre n → ∃ r, p = pre ++ r ∧ subtreeAt n r = some x
  | .text s, pre, p, x => by
    intro hm
    rw [show flattenP pre (.text s) = [(pre, .text s)] from rfl, List.mem_singleton] at hm
    injection hm with h1 h2
    exact ⟨[], by simp [h1], by rw [h2]; rfl⟩
  | .tag nm cl cs, pre, p, x => by
    intro hm
    rw [show flattenP pre (.tag nm cl cs) =
      (pre, .tag nm cl cs) :: flattenKids pre 0 cs from rfl, List.mem_cons] at hm
    rcases hm with he | hm2
    · injection he with h1 h2
      exact ⟨[], by simp [h1], by rw [h2]; rfl⟩
    · obtain ⟨j, r, c, hc, hp, hs⟩ := flattenKids_sound cs pre 0 p x hm2
      refine ⟨j :: r, ?_, ?_⟩
      · rw [hp]
        simp
      · show (match cs[j]? with
          | some c2 => subtreeAt c2 r
          | none => none) = some x
        rw [hc]
        exact hs
theorem flattenKids_sound : ∀ (cs : List Node) (pre : List Nat) (i : Nat) (p : List Nat) (x : Node),
    (p, x) ∈ flattenKids pre i cs →
    ∃ j r c, cs[j]? = some c ∧ p = pre ++ [i + j] ++ r ∧ subtreeAt c r = some x
  | [], pre, i, p, x => by
    intro hm
    simp [flattenKids] at hm
  | c :: cs, pre, i, p, x => by
    intro hm
    rw [show flattenKids pre i (c :: cs) =
      flattenP (pre ++ [i]) c ++ flattenKids pre (i + 1) cs from rfl, List.mem_append] at hm
    rcases hm with hm1 | hm2
    · obtain ⟨r, hp, hs⟩ := flattenP_sound c (pre ++ [i]) p x hm1
      exact ⟨0, r, c, by simp, by simpa using hp, hs⟩
    · obtain ⟨j, r, c2, hc, hp, hs⟩ := flattenKids_sound cs pre (i + 1) p x hm2
      refine ⟨j + 1, r, c2, by simpa using hc, ?_, hs⟩
      rw [hp]
      have : i + 1 + j = i + (j + 1) := by omega
      rw [this]
end

theorem findEntry_sound (q : Node → Bool) (root : Node) (pr : List Nat) (x : Node)
    (h : findEntry q root = some (pr, x)) : subtreeAt root pr = some x := by
  unfold findEntry at h
  have hmem : (pr, x) ∈ (flattenP [] root).drop 1 := find?_mem_own _ _ _ h
  have hmem2 : (pr, x) ∈ flattenP [] root := List.mem_of_mem_drop hmem
  obtain ⟨r, hr, hs⟩ := flattenP_sound root [] pr x hmem2
  rw [List.nil_append] at hr
  rw [hr]
  exact hs

theorem mainLoc_sound (d : Node) (mp : List Nat) (m1 : Node)
    (h : mainLoc d = some (mp, m1)) : subtreeAt d mp = some m1 := by
  unfold mainLoc at h
  cases hf : findEntry isMainDiv d with
  | some e =>
    rw [hf] at h
    injection h with he
    subst he
    exact findEntry_sound isMainDiv d mp m1 hf
  | none =>
    rw [hf] at h
    exact findEntry_sound isBodyTag d mp m1 h

theorem replaceAtL_getElem : ∀ (cs : List Node) (i : Nat) (p : List Nat) (m2 : Node) (j : Nat),
    (replaceAtL cs i p m2)[j]? =
      if j = i then (cs[j]?).map (fun c => replaceAt c p m2) else cs[j]?
  | [], i, p, m2, j => by
    cases hji : j == i <;> simp [replaceAtL]
  | c :: cs, 0, p, m2, 0 => by simp [replaceAtL]
  | c :: cs, 0, p, m2, j + 1 => by simp [replaceAtL]
  | c :: cs, i + 1, p, m2, 0 => by simp [replaceAtL]
  | c :: cs, i + 1, p, m2, j + 1 => by
    rw [show replaceAtL (c :: cs) (i + 1) p m2 = c :: replaceAtL cs i p m2 from rfl]
    rw [List.getElem?_cons_succ, List.getElem?_cons_succ,
      replaceAtL_getElem cs i p m2 j]
    by_cases hji : j = i
    · rw [if_pos hji, if_pos (by omega)]
    · rw [if_neg hji, if_neg (by omega)]

theorem subtreeAt_replaceAt : ∀ (p : List Nat) (d m1 m2 : Node) (r : List Nat),
    subtreeAt d p = some m1 →
    subtreeAt (replaceAt d p m2) (p ++ r) = subtreeAt m2 r
  | [], d, m1, m2, r => fun _ => by
    have h0 : replaceAt d [] m2 = m2 := by cases d <;> rfl
    rw [h0, List.nil_append]
  | i :: p', d, m1, m2, r => fun h => by
    cases d with
    | text s => simp [subtreeAt] at h
    | tag nm cl cs =>
      unfold subtreeAt at h
      cases hci : cs[i]? with
      | none => rw [hci] at h; cases h
      | some ci =>
        rw [hci] at h
        dsimp only at h
        show subtreeAt (.tag nm cl (replaceAtL cs i p' m2)) (i :: (p' ++ r)) = subtreeAt m2 r
        rw [show subtreeAt (.tag nm cl (replaceAtL cs i p' m2)) (i :: (p' ++ r)) =
          (match (replaceAtL cs i p' m2)[i]? with
            | some c2 => subtreeAt c2 (p' ++ r)
            | none => none) from rfl]
        rw [replaceAtL_getElem cs i p' m2 i, if_pos rfl, hci]
        dsimp only [Option.map]
        exact subtreeAt_replaceAt p' ci m1 m2 r h

/-- C7 (amended): hyperlink removal is complete within the content region —
in the working document every node of the `div.main` (or fallback `body`)
subtree has no `<a>` descendant, and every proper subnode is itself not an
`<a>`; hence text that exists only inside a hyperlink located in the
content region cannot contribute to any verse.  (Hyperlinks OUTSIDE the
content region survive and their text can leak into the last verse:
`hyperlink_leak_cex` refutes the claim as stated.) -/
theorem content_region_anchor_free (d : Node) (c : Ctx) (hc : mkCtx d = some c)
    (r : List Nat) (x : Node) (hx : subtreeAt c.w (c.mp ++ r) = some x) :
    noAnchorInside x = true ∧ (r ≠ [] → isAnchor x = false) := by
  unfold mkCtx at hc
  cases hml : mainLoc d with
  | none => rw [hml] at hc; cases hc
  | some e =>
    rcases e with ⟨mp, m1⟩
    rw [hml] at hc
    dsimp only at hc
    injection hc with he
    subst he
    dsimp only at hx
    rw [subtreeAt_replaceAt mp d m1 (stripAnchors m1) r (mainLoc_sound d mp m1 hml)] at hx
    exact subtreeAt_clean r (stripAnchors m1) x (stripAnchors_clean m1) hx

/-- C7 is false as stated: a hyperlink OUTSIDE the content region
(`div.main`) is not decomposed — only `main_content.find_all('a')` is — and
the `next_element` walk of the last verse runs past the end of the region
and collects the hyperlink's text into the verse. -/
theorem hyperlink_leak_cex :
    extract (docOf [mainDiv [verseSpan "1", .text "hello "],
      .tag "a" none [.text "link text"]]) = some [(1, "hello link text")] ∧
    findEntry isAnchor (docOf [mainDiv [verseSpan "1", .text "hello "],
      .tag "a" none [.text "link text"]]) =
      some ([0, 1], .tag "a" none [.text "link text"]) :=
  ⟨by decide, by decide⟩

/-- The context computed for the C7 witness document (a hyperlink inside
the content region). -/
def ctxC7w : Ctx :=
  (mkCtx (docOf [mainDiv [verseSpan "1", .text "a ",
    .tag "a" none [.text "gone"]]])).getD ctxDefault

/-- Witness for C7 (amended) at a document with a hyperlink inside the
content region: the surviving node at child index 1 is anchor-free. -/
theorem content_region_anchor_free_witness :
    subtreeAt ctxC7w.w (ctxC7w.mp ++ [1]) = some (Node.text "a ") ∧
    (noAnchorInside (Node.text "a ") = true ∧
      ([1] ≠ ([] : List Nat) → isAnchor (Node.text "a ") = false)) :=
  ⟨by decide,
    content_region_anchor_free
      (docOf [mainDiv [verseSpan "1", .text "a ", .tag "a" none [.text "gone"]]])
      ctxC7w rfl [1] (Node.text "a ") (by decide)⟩

/-- The context computed for the C10 witness document. -/
def ctxC10w : Ctx :=
  (mkCtx (docOf [mainDiv [verseSpan "5", .text "c ", verseSpan "5", .text " "]])).getD ctxDefault

/-- Witness for C10 at a document with two markers labeled 5 whose second
yields only whitespace (normalized to empty). -/
theorem duplicate_label_empty_keeps_earlier_witness :
    ((records ctxC10w).filter (fun r => r.1 == some 5) = [(some 5, "c"), (some 5, "")]) ∧
    extract (docOf [mainDiv [verseSpan "5", .text "c ", verseSpan "5", .text " "]]) =
      some [(5, "c")] ∧
    dictLookup 5 [((5 : Int), "c")] = some "c" :=
  ⟨by decide, by decide,
    duplicate_label_empty_keeps_earlier
      (docOf [mainDiv [verseSpan "5", .text "c ", verseSpan "5", .text " "]])
      ctxC10w rfl [(5, "c")] (by decide) 5 "c" "" (by decide) (by decide) rfl⟩
